import Mathlib

/-! Verification of `pthread_example` (src/main.c).

A shallow embedding of the block reducer (`calculate_block`), the worker loop
(`compute_thread_proc`), the manager (`manager_thread_proc`), the block
partition computed in `main`, and the container writer / reader
(`prepare_data_file`, `load_data`).

Conventions of the embedding.

* Sample arithmetic is exact: an `f32` sample is a rational number.  The only
  partial operation the code performs on samples is the division that computes
  a progress value; it is modelled by `f32_div`, whose result is `none` when
  the divisor is zero (the C expression then yields a NaN or an infinity, not
  a number).
* `size_t` quantities are natural numbers.  Every index the code forms is
  bounded by `n_blocks` or by the buffer length, both of which are `size_t`
  values, so no wrap-around can occur and no reduction modulo `2 ^ 64` is
  needed.
* A thread is a step function on an explicit state; one step of a worker is
  one pass through its loop body: the mutex-protected critical section followed
  by the (thread-local, side-effect free) call of `calculate_block`.
  An interleaving is a list of thread identifiers.
* Cancellation (`pthread_testcancel`, `pthread_cancel`) is not modelled: all
  statements below are about runs without cancellation.
-/

namespace PthreadExample

/-! ## Constants -/

/-- The constant `BLOCK_SIZE_POW` (main.c line 17). -/
def BLOCK_SIZE_POW : Nat := 12

/-- The constant `BLOCK_SIZE` (main.c line 18): `1 << BLOCK_SIZE_POW`. -/
def BLOCK_SIZE : Nat := 1 <<< BLOCK_SIZE_POW

/-- The constant `N_THREADS` (main.c line 230). -/
def N_THREADS : Nat := 2

/-- The constant `BLAKE2B_OUTBYTES` of blake2b.h: the digest width in bytes. -/
def BLAKE2B_OUTBYTES : Nat := 64

/-! ## Block reducer -/

/-- The library function `fabsf`, on exact samples. -/
def fabsf (x : ℚ) : ℚ := |x|

/-- A pointer `buf + off` into a sample buffer, as the function that maps an
index `i` to the value read by `(buf + off)[i]`.  Reads past the end of the
buffer have no defined value in C; here they read `0`. -/
def ptr_add (buf : List ℚ) (off : Nat) : Nat → ℚ :=
  fun i => buf.getD (off + i) 0

/-- The function `calculate_block` (main.c lines 210-226).  The two nested
`for` loops are folds over `0, ..., len - 1`; the loop state is `max`. -/
def calculate_block (data : Nat → ℚ) (len : Nat) : ℚ :=
  (List.range len).foldl
    (fun max i =>
      (List.range len).foldl
        (fun max j =>
          let val := data i * data j + data i
          if fabsf val > max then val else max)
        max)
    0

/-- The pointer `data + k * BLOCK_SIZE` passed to `calculate_block` for block
`k` (main.c lines 277 and 328). -/
def block_ptr (data : List ℚ) (k : Nat) : Nat → ℚ :=
  ptr_add data (k * BLOCK_SIZE)

/-- The value `calculate_block(data + k * BLOCK_SIZE, BLOCK_SIZE)`. -/
def block_result (data : List ℚ) (k : Nat) : ℚ :=
  calculate_block (block_ptr data k) BLOCK_SIZE

/-- The buffer index read by `(data + k * BLOCK_SIZE)[i]`. -/
def block_index (k i : Nat) : Nat := k * BLOCK_SIZE + i

/-- The block count computed by `main` (main.c lines 378-379) from the loaded
length: `len /= BLOCK_SIZE; n_blocks = len`. -/
def main_n_blocks (len : Nat) : Nat := len / BLOCK_SIZE

/-! ## Progress values -/

/-- The `f32` division `a / b` that computes a progress value.  With a zero
divisor the C expression yields NaN (for `0 / 0`) or an infinity, which is not
a number: the result is then `none`. -/
def f32_div (a b : ℚ) : Option ℚ :=
  if b = 0 then none else some (a / b)

/-! ## Worker -/

/-- The shared `struct compute_thread_param` (main.c lines 245-253).  The
field `percentage` holds the float that the pointer of that name designates,
which is the manager's `par_percentage`.  `data` is immutable and is passed
to the step functions separately; the mutex is represented by the atomicity
of a step.  The last two fields are instrumentation and are never read by
the code. -/
structure compute_thread_param where
  n_blocks : Nat
  next_block_to_compute : Nat
  percentage : Option ℚ
  accum : ℚ
  /-- instrumentation: the block indices handed out, oldest first -/
  claimed : List Nat
  /-- instrumentation: the values stored through `percentage`, oldest first -/
  written : List (Option ℚ)

/-- The locals of one `compute_thread_proc` activation: the pending result
`res` and whether the thread has left its loop. -/
structure compute_thread_local where
  res : ℚ
  exited : Bool

/-- One pass through the loop body of `compute_thread_proc` (main.c lines
264-284): the critical section, then `calculate_block` on the captured
block. -/
def compute_thread_proc_iter (data : List ℚ) (param : compute_thread_param)
    (l : compute_thread_local) : compute_thread_param × compute_thread_local :=
  let accum := param.accum + l.res
  let pct := f32_div param.next_block_to_compute param.n_blocks
  if param.next_block_to_compute = param.n_blocks then
    ({ param with accum := accum, percentage := pct, written := param.written ++ [pct] },
     { l with exited := true })
  else
    let block := block_ptr data param.next_block_to_compute
    ({ param with
        accum := accum
        percentage := pct
        written := param.written ++ [pct]
        next_block_to_compute := param.next_block_to_compute + 1
        claimed := param.claimed ++ [param.next_block_to_compute] },
     { res := calculate_block block BLOCK_SIZE, exited := false })

/-! ## Manager -/

/-- The fields of `struct manager_thread_param` (main.c lines 232-243) that
the computation writes.  `par_percentage` is the float designated by
`compute_thread_param.percentage` and lives there. -/
structure manager_thread_param where
  seq_percentage : Option ℚ
  n_blocks : Nat
  seq_res : ℚ
  par_res : ℚ
  done : Bool

/-- Control points of `manager_thread_proc` after the workers are created. -/
inductive manager_pc where
  /-- at the head of the sequential loop (line 326) with loop index `i` -/
  | seq_loop (i : Nat)
  /-- at the head of the join loop (line 335) with loop index `i` -/
  | join_loop (i : Nat)
  /-- after `return 0` (line 345) -/
  | returned
deriving DecidableEq

/-- The state of the manager thread and its worker pool. -/
structure System where
  param : manager_thread_param
  compute_param : compute_thread_param
  workers : List compute_thread_local
  pc : manager_pc
  /-- instrumentation: the values stored to `seq_percentage`, oldest first -/
  seq_written : List (Option ℚ)

/-- The manager's `par_percentage`, the target of `compute_param.percentage`
(line 303). -/
def System.par_percentage (s : System) : Option ℚ := s.compute_param.percentage

/-- The state after lines 296-323 of `manager_thread_proc`: both structs are
zeroed (`memset` in `main` line 394 and in line 300), `n_blocks` is copied,
and `n_workers` workers have been created and have not run yet. -/
def manager_thread_proc_init (n_blocks n_workers : Nat) : System :=
  { param := { seq_percentage := some 0, n_blocks := n_blocks, seq_res := 0, par_res := 0,
               done := false }
    compute_param := { n_blocks := n_blocks, next_block_to_compute := 0, percentage := some 0,
                       accum := 0, claimed := [], written := [] }
    workers := List.replicate n_workers { res := 0, exited := false }
    pc := manager_pc.seq_loop 0
    seq_written := [] }

/-- One step of `manager_thread_proc` (main.c lines 326-345): one iteration
of the sequential loop, one `pthread_join` (which blocks, leaving the state
unchanged, until that worker has exited), or the final publication of
`par_res` and `done`. -/
def manager_thread_proc_step (data : List ℚ) (s : System) : System :=
  match s.pc with
  | manager_pc.seq_loop i =>
    if i < s.param.n_blocks then
      let pct := f32_div i s.param.n_blocks
      { s with
          param := { s.param with
                      seq_res := s.param.seq_res + calculate_block (block_ptr data i) BLOCK_SIZE
                      seq_percentage := pct }
          seq_written := s.seq_written ++ [pct]
          pc := manager_pc.seq_loop (i + 1) }
    else
      { s with pc := manager_pc.join_loop 0 }
  | manager_pc.join_loop i =>
    match s.workers[i]? with
    | some l => if l.exited then { s with pc := manager_pc.join_loop (i + 1) } else s
    | none =>
      { s with
          param := { s.param with par_res := s.compute_param.accum, done := true }
          pc := manager_pc.returned }
  | manager_pc.returned => s

/-- One step of worker `w`: a pass through its loop body if it is still
running, nothing otherwise. -/
def worker_step (data : List ℚ) (w : Nat) (s : System) : System :=
  match s.workers[w]? with
  | some l =>
    if l.exited then s
    else
      { s with
          compute_param := (compute_thread_proc_iter data s.compute_param l).1
          workers := s.workers.set w (compute_thread_proc_iter data s.compute_param l).2 }
  | none => s

/-- Thread identifiers. -/
inductive thread where
  | manager
  | worker (w : Nat)
deriving DecidableEq

/-- One step of the thread `t`. -/
def step (data : List ℚ) (t : thread) (s : System) : System :=
  match t with
  | thread.manager => manager_thread_proc_step data s
  | thread.worker w => worker_step data w s

/-- The state reached from `s` under the interleaving `sched`. -/
def run (data : List ℚ) (sched : List thread) (s : System) : System :=
  sched.foldl (fun s t => step data t s) s

/-- All workers have left their loops. -/
def all_exited (s : System) : Bool := s.workers.all (fun l => l.exited)

/-- The sum of `calculate_block` over the blocks `0, ..., n - 1`. -/
def block_sum (data : List ℚ) (n : Nat) : ℚ :=
  ((List.range n).map (block_result data)).sum

/-! ## Invariants and measures -/

/-- The result a worker still has to deposit. -/
def pending (l : compute_thread_local) : ℚ := if l.exited then 0 else l.res

/-- Number of further loop passes a worker will make at least: one if it is
still running. -/
def running (l : compute_thread_local) : Nat := if l.exited then 0 else 1

/-- Invariant of the cursor and the worker pool. -/
structure WInv (data : List ℚ) (B N : Nat) (s : System) : Prop where
  n_blocks_eq : s.compute_param.n_blocks = B
  length_eq : s.workers.length = N
  next_le : s.compute_param.next_block_to_compute ≤ B
  claimed_eq : s.compute_param.claimed = List.range s.compute_param.next_block_to_compute
  accum_eq : s.compute_param.accum + (s.workers.map pending).sum
      = block_sum data s.compute_param.next_block_to_compute
  exited_next : ∀ l ∈ s.workers, l.exited = true → s.compute_param.next_block_to_compute = B
  written_eq : ∃ ks : List Nat,
      s.compute_param.written = ks.map (fun (k : Nat) => f32_div (k : ℚ) (B : ℚ)) ∧
      ks.Pairwise (· ≤ ·) ∧ ∀ k ∈ ks, k ≤ s.compute_param.next_block_to_compute
  percentage_eq : s.compute_param.percentage = (s.compute_param.written.getLast?).getD (some 0)
  exited_written : ∀ l ∈ s.workers, l.exited = true →
      s.compute_param.percentage = f32_div B B
  res_zero : s.compute_param.next_block_to_compute = 0 → ∀ l ∈ s.workers, l.res = 0

/-- The number of iterations of the sequential loop the manager has completed. -/
def seq_index (s : System) : Nat :=
  match s.pc with
  | manager_pc.seq_loop i => i
  | _ => s.param.n_blocks

/-- The workers the manager has already joined have exited. -/
def joined (s : System) : Prop :=
  match s.pc with
  | manager_pc.seq_loop _ => True
  | manager_pc.join_loop j => ∀ w, w < j → ∃ l, s.workers[w]? = some l ∧ l.exited = true
  | manager_pc.returned => all_exited s = true

/-- Invariant of the manager thread. -/
structure MInv (data : List ℚ) (B : Nat) (s : System) : Prop where
  n_blocks_eq : s.param.n_blocks = B
  index_le : seq_index s ≤ B
  seq_res_eq : s.param.seq_res = block_sum data (seq_index s)
  seq_written_eq : s.seq_written
      = (List.range (seq_index s)).map (fun (i : Nat) => f32_div (i : ℚ) (B : ℚ))
  seq_percentage_eq : s.param.seq_percentage = (s.seq_written.getLast?).getD (some 0)
  done_iff : s.param.done = true ↔ s.pc = manager_pc.returned
  par_res_eq : s.pc = manager_pc.returned → s.param.par_res = s.compute_param.accum
  par_res_zero : s.pc ≠ manager_pc.returned → s.param.par_res = 0
  joined_exited : joined s

/-- The invariant of the whole system. -/
def Inv (data : List ℚ) (B N : Nat) (s : System) : Prop :=
  WInv data B N s ∧ MInv data B s

/-- Steps the manager still has to take before it returns. -/
def manager_measure (s : System) : Nat :=
  match s.pc with
  | manager_pc.seq_loop i => (s.param.n_blocks - i) + s.workers.length + 2
  | manager_pc.join_loop j => (s.workers.length - j) + 1
  | manager_pc.returned => 0

/-- Loop passes the workers still have to make: one per unclaimed block and
one per running worker. -/
def worker_measure (s : System) : Nat :=
  (s.compute_param.n_blocks - s.compute_param.next_block_to_compute)
    + (s.workers.map running).sum

/-! ## Runs from the initial state, tests on progress values -/

/-- The state reached from the initial state of a run with `n_blocks` blocks
and `n_workers` workers under the interleaving `sched`. -/
def reached (data : List ℚ) (n_blocks n_workers : Nat) (sched : List thread) : System :=
  run data sched (manager_thread_proc_init n_blocks n_workers)

/-- The comparison `a <= b` of two progress values.  A comparison in which one
side is not a number is false, as in C. -/
def progress_le : Option ℚ → Option ℚ → Bool
  | some a, some b => decide (a ≤ b)
  | _, _ => false

/-- The progress value `p` is 1.0 up to `eps`. -/
def near_one (eps : ℚ) : Option ℚ → Bool
  | some q => decide (|1 - q| ≤ eps)
  | none => false

/-! ## Concrete inputs -/

/-- A buffer of two full blocks. -/
def two_blocks : List ℚ := List.replicate (2 * BLOCK_SIZE) 1

/-- A buffer shorter than one block. -/
def short_buffer : List ℚ := [1, 2, 3]

/-- An interleaving of two workers and the manager under which two blocks are
processed and the manager returns. -/
def sched_done : List thread :=
  [thread.worker 0, thread.worker 1, thread.worker 0, thread.worker 1,
   thread.manager, thread.manager, thread.manager, thread.manager, thread.manager,
   thread.manager]

/-- An interleaving after which worker 0 has exited while worker 1 and the
manager are still running. -/
def sched_early : List thread :=
  [thread.worker 0, thread.worker 1, thread.worker 0]

/-- The state reached under `sched` when `main` has loaded `two_blocks` and the
manager has started the `N_THREADS` workers. -/
def two_blocks_run (sched : List thread) : System :=
  reached two_blocks (main_n_blocks two_blocks.length) N_THREADS sched

/-- A block of `BLOCK_SIZE` samples: 1, -2, then zeros. -/
def signed_block : List ℚ := 1 :: -2 :: List.replicate 4094 0

/-! ## Container -/

/-- The `k` low-order bytes of `x`, least significant first: the memory image
of a `k`-byte unsigned integer on the (little-endian) machine. -/
def le_bytes : Nat → Nat → List Nat
  | 0, _ => []
  | k + 1, x => x % 256 :: le_bytes k (x / 256)

/-- The unsigned integer whose little-endian memory image is the byte list. -/
def le_value : List Nat → Nat
  | [] => 0
  | b :: bs => b + 256 * le_value bs

/-- The memory image of an `f32` array.  A sample is represented here by its
32-bit pattern, a number below `2 ^ 32`. -/
def f32_bytes (data : List Nat) : List Nat :=
  data.flatMap (le_bytes 4)

/-- The `f32` array (as 32-bit patterns) whose memory image is the byte list. -/
def f32_array : List Nat → List Nat
  | b0 :: b1 :: b2 :: b3 :: rest => le_value [b0, b1, b2, b3] :: f32_array rest
  | _ => []

/-- The lines 78-127 of `prepare_data_file`: `data` is the averaged mono buffer
built by lines 64-76, `len` its length.  The result is the content of the
output file when `blake2b` succeeds and every `fwrite` is complete; `none`
when `blake2b` reports an error (no file is written).  The digest function is
a parameter: `blake2b input` is the content of the `BLAKE2B_OUTBYTES`-byte
output buffer, or `none` for a non-zero return code. -/
def prepare_data_file (blake2b : List Nat → Option (List Nat)) (data : List Nat) :
    Option (List Nat) :=
  let len := data.length
  match blake2b (f32_bytes data) with
  | none => none
  | some hash => some (le_bytes 8 len ++ hash ++ f32_bytes data)

/-- The outcome of one `fread(ptr, size, nmemb, f)`. -/
structure fread_result where
  /-- the return value: the number of complete items read -/
  items : Nat
  /-- the bytes of the complete items stored at `ptr` -/
  bytes : List Nat
  /-- the unread remainder of the stream -/
  rest : List Nat

/-- The library function `fread` on a regular file without read errors: it
delivers as many complete items as are requested and available. -/
def fread (size nmemb : Nat) (f : List Nat) : fread_result :=
  let n := min nmemb (f.length / size)
  { items := n, bytes := f.take (n * size), rest := f.drop (n * size) }

/-- The `return -1` statements of `load_data`, in source order. -/
inductive load_failure where
  /-- line 148: `fopen` failed -/
  | open_failed
  /-- line 154: short read of the length -/
  | read_len
  /-- line 161: short read of the digest -/
  | read_hash
  /-- line 175: `fread` delivered nothing while payload was still missing -/
  | read_data
  /-- line 188: `blake2b` reported an error -/
  | hash_failed
  /-- line 193: the digests differ -/
  | hash_mismatch
deriving DecidableEq

/-- The result of `load_data`: `ok arr len` is `return 0` with `*arr_out` and
`*len_out` stored; `fail site` is a `return -1`, which stores nothing.  The
site is instrumentation; the caller sees only `status`. -/
inductive load_result where
  | ok (arr : List Nat) (len : Nat)
  | fail (site : load_failure)
deriving DecidableEq

/-- The `int` returned by `load_data`. -/
def load_result.status : load_result → Int
  | load_result.ok _ _ => 0
  | load_result.fail _ => -1

/-- The read loop of `load_data` (lines 169-179).  `mem` is the part of the
buffer already filled, `remaining` is `end - start`.  Every pass that does not
fail reads at least one item, so `remaining` passes always suffice; the last
argument bounds the number of passes. -/
def load_data_loop (f mem : List Nat) (remaining : Nat) : Nat → Option (List Nat)
  | 0 => if remaining = 0 then some mem else none
  | fuel + 1 =>
    if remaining = 0 then some mem
    else
      if (fread 4 remaining f).items = 0 then none
      else
        load_data_loop (fread 4 remaining f).rest (mem ++ (fread 4 remaining f).bytes)
          (remaining - (fread 4 remaining f).items) fuel

/-- The function `load_data` (lines 136-199).  `file` is the content of the
file, `none` if it cannot be opened. -/
def load_data (blake2b : List Nat → Option (List Nat)) (file : Option (List Nat)) :
    load_result :=
  match file with
  | none => load_result.fail load_failure.open_failed
  | some f =>
    if (fread 1 8 f).items < 8 then load_result.fail load_failure.read_len
    else
      let len := le_value (fread 1 8 f).bytes
      let f1 := (fread 1 8 f).rest
      if (fread 1 BLAKE2B_OUTBYTES f1).items < BLAKE2B_OUTBYTES then
        load_result.fail load_failure.read_hash
      else
        let hash_expected := (fread 1 BLAKE2B_OUTBYTES f1).bytes
        let f2 := (fread 1 BLAKE2B_OUTBYTES f1).rest
        match load_data_loop f2 [] len len with
        | none => load_result.fail load_failure.read_data
        | some mem =>
          match blake2b mem with
          | none => load_result.fail load_failure.hash_failed
          | some hash_computed =>
            if hash_expected ≠ hash_computed then load_result.fail load_failure.hash_mismatch
            else load_result.ok (f32_array mem) len

/-! ## Concrete digests and containers -/

/-- A stand-in digest (the byte sum, repeated) used only to instantiate the
digest parameter at concrete inputs.  It is not BLAKE2b. -/
def sum_digest (input : List Nat) : Option (List Nat) :=
  some (List.replicate BLAKE2B_OUTBYTES (input.sum % 256))

/-- The container of the two samples with bit patterns 1 and 513 under
`sum_digest`: length 2, digest 4 (repeated), payload 1 0 0 0 1 2 0 0. -/
def sample_container : List Nat :=
  le_bytes 8 2 ++ List.replicate 64 4 ++ [1, 0, 0, 0, 1, 2, 0, 0]

/-- A digest that does not depend on its input, used only to show that the
check of `load_data` rests on the digest.  It is not BLAKE2b. -/
def const_digest (_input : List Nat) : Option (List Nat) :=
  some (List.replicate BLAKE2B_OUTBYTES 0)

/-! # Lemmas -/

/-! ## Sums over lists -/

/-- Replacing one entry of a list changes the sum of a map over it by the
difference at that entry. -/
theorem sum_map_set {α M : Type} [AddCommMonoid M] (f : α → M) :
    ∀ (ws : List α) (w : Nat) (l l' : α), ws[w]? = some l →
      ((ws.set w l').map f).sum + f l = (ws.map f).sum + f l'
  | [], w, l, l', h => by simp at h
  | a :: ws, 0, l, l', h => by
    simp at h
    subst h
    simp [List.set]
    abel
  | a :: ws, w + 1, l, l', h => by
    simp at h
    have ih := sum_map_set f ws w l l' h
    simp only [List.set, List.map_cons, List.sum_cons]
    rw [add_assoc, ih, add_assoc]

/-- The sum of a map over `0, ..., n` splits off its last term. -/
theorem sum_map_range_succ {M : Type} [AddCommMonoid M] (f : Nat → M) (n : Nat) :
    ((List.range (n + 1)).map f).sum = ((List.range n).map f).sum + f n := by
  rw [List.range_succ, List.map_append, List.sum_append]
  simp only [List.map_cons, List.map_nil, List.sum_cons, List.sum_nil, add_zero]

/-- The block sum over one more block. -/
theorem block_sum_succ (data : List ℚ) (n : Nat) :
    block_sum data (n + 1) = block_sum data n + block_result data n :=
  sum_map_range_succ (block_result data) n

/-- A sum of pending results that are all zero is zero. -/
theorem pending_sum_zero (ws : List compute_thread_local)
    (h : ∀ l ∈ ws, pending l = 0) : (ws.map pending).sum = 0 := by
  induction ws with
  | nil => rfl
  | cons a ws ih =>
    simp only [List.map_cons, List.sum_cons]
    rw [h a (List.mem_cons_self _ _), ih (fun l hl => h l (List.mem_cons_of_mem _ hl))]
    simp

/-- A fold whose step function leaves the state `m` unchanged on every element
returns `m`. -/
theorem foldl_fixed {α β : Type} (g : α → β → α) (m : α) (l : List β)
    (h : ∀ j ∈ l, g m j = m) : l.foldl g m = m := by
  induction l with
  | nil => rfl
  | cons a l ih =>
    rw [List.foldl_cons, h a (List.mem_cons_self _ _)]
    exact ih (fun j hj => h j (List.mem_cons_of_mem _ hj))

/-- The index list `0, ..., n + 1` as 0, 1 and the shifted list `0, ..., n -
1`. -/
theorem range_add_two (n : Nat) :
    List.range (n + 2) = 0 :: 1 :: (List.range n).map (fun j => j + 2) := by
  rw [List.range_succ_eq_map, List.range_succ_eq_map]
  simp [Function.comp_def]

/-- The last element of a map over `0, ..., B - 1`. -/
theorem getLast?_map_range (f : Nat → Option ℚ) (B : Nat) (hB : 1 ≤ B) :
    ((List.range B).map f).getLast? = some (f (B - 1)) := by
  obtain ⟨n, rfl⟩ : ∃ n, B = n + 1 := ⟨B - 1, by omega⟩
  rw [List.range_succ, List.map_append]
  simp

/-- The value of `BLOCK_SIZE`. -/
theorem BLOCK_SIZE_eq : BLOCK_SIZE = 4096 := by decide

/-- Division by a positive block count yields a number. -/
theorem f32_div_pos (a : ℚ) (B : Nat) (hB : 1 ≤ B) : f32_div a B = some (a / B) := by
  have : (B : ℚ) ≠ 0 := by
    have : 0 < B := hB
    exact_mod_cast this.ne'
  simp [f32_div, this]

/-- For a positive block count, `n_blocks / n_blocks` is 1. -/
theorem f32_div_self (B : Nat) (hB : 1 ≤ B) : f32_div B B = some 1 := by
  rw [f32_div_pos _ B hB]
  have : (B : ℚ) ≠ 0 := by
    have : 0 < B := hB
    exact_mod_cast this.ne'
  rw [div_self this]

/-! ## The steps of a worker -/

/-- A worker that has exited takes no step. -/
theorem worker_step_exited (data : List ℚ) (w : Nat) (s : System) (l : compute_thread_local)
    (h : s.workers[w]? = some l) (he : l.exited = true) : worker_step data w s = s := by
  simp [worker_step, h, he]

/-- A thread identifier that names no worker takes no step. -/
theorem worker_step_none (data : List ℚ) (w : Nat) (s : System)
    (h : s.workers[w]? = none) : worker_step data w s = s := by
  simp [worker_step, h]

/-- The step of a running worker is one pass through its loop body. -/
theorem worker_step_running (data : List ℚ) (w : Nat) (s : System) (l : compute_thread_local)
    (h : s.workers[w]? = some l) (he : l.exited = false) :
    worker_step data w s =
      { s with
          compute_param := (compute_thread_proc_iter data s.compute_param l).1
          workers := s.workers.set w (compute_thread_proc_iter data s.compute_param l).2 } := by
  simp [worker_step, h, he]

/-- The loop pass that finds the cursor at `n_blocks`: deposit, publish, exit. -/
theorem iter_last (data : List ℚ) (p : compute_thread_param) (l : compute_thread_local)
    (h : p.next_block_to_compute = p.n_blocks) :
    compute_thread_proc_iter data p l =
      ({ p with accum := p.accum + l.res
                percentage := f32_div p.next_block_to_compute p.n_blocks
                written := p.written ++ [f32_div p.next_block_to_compute p.n_blocks] },
       { l with exited := true }) := by
  simp [compute_thread_proc_iter, h]

/-- The loop pass that finds a block left: deposit, publish, claim, compute. -/
theorem iter_claim (data : List ℚ) (p : compute_thread_param) (l : compute_thread_local)
    (h : p.next_block_to_compute ≠ p.n_blocks) :
    compute_thread_proc_iter data p l =
      ({ p with accum := p.accum + l.res
                percentage := f32_div p.next_block_to_compute p.n_blocks
                written := p.written ++ [f32_div p.next_block_to_compute p.n_blocks]
                next_block_to_compute := p.next_block_to_compute + 1
                claimed := p.claimed ++ [p.next_block_to_compute] },
       { res := block_result data p.next_block_to_compute, exited := false }) := by
  simp [compute_thread_proc_iter, h, block_result]

/-- The test `all_exited` as a statement about every worker. -/
theorem all_exited_iff (s : System) :
    all_exited s = true ↔ ∀ l ∈ s.workers, l.exited = true := by
  simp [all_exited, List.all_eq_true]

/-- Once all workers have exited, worker steps change nothing. -/
theorem worker_step_all_exited (data : List ℚ) (w : Nat) (s : System)
    (h : all_exited s = true) : worker_step data w s = s := by
  cases hw : s.workers[w]? with
  | none => exact worker_step_none data w s hw
  | some l =>
    have hl : l ∈ s.workers := List.mem_iff_getElem?.2 ⟨w, hw⟩
    exact worker_step_exited data w s l hw ((all_exited_iff s).1 h l hl)

/-- A worker step writes nothing that belongs to the manager alone. -/
theorem worker_step_param (data : List ℚ) (w : Nat) (s : System) :
    (worker_step data w s).param = s.param ∧ (worker_step data w s).pc = s.pc ∧
      (worker_step data w s).seq_written = s.seq_written := by
  unfold worker_step
  split
  · split <;> simp
  · simp

/-- A worker that has exited stays exited under the steps of any worker. -/
theorem worker_step_keeps_exited (data : List ℚ) (w0 w : Nat) (s : System)
    (l : compute_thread_local) (h : s.workers[w]? = some l) (he : l.exited = true) :
    (worker_step data w0 s).workers[w]? = some l := by
  cases h0 : s.workers[w0]? with
  | none => rw [worker_step_none data w0 s h0]; exact h
  | some l0 =>
    cases he0 : l0.exited with
    | true => rw [worker_step_exited data w0 s l0 h0 he0]; exact h
    | false =>
      rw [worker_step_running data w0 s l0 h0 he0]
      have hne : w0 ≠ w := by
        intro heq
        subst heq
        rw [h0] at h
        injection h with h
        subst h
        rw [he] at he0
        exact Bool.noConfusion he0
      simp only
      rw [List.getElem?_set_ne hne]
      exact h

/-- A worker that enters its critical section when the cursor is at
`n_blocks` exits in that pass. -/
theorem worker_step_exits (data : List ℚ) (w : Nat) (s : System)
    (hn : s.compute_param.next_block_to_compute = s.compute_param.n_blocks)
    (hw : w < s.workers.length) :
    ∃ l, (worker_step data w s).workers[w]? = some l ∧ l.exited = true := by
  cases h : s.workers[w]? with
  | none => rw [List.getElem?_eq_getElem hw] at h; exact Option.noConfusion h
  | some l =>
    cases he : l.exited with
    | true => rw [worker_step_exited data w s l h he]; exact ⟨l, h, he⟩
    | false =>
      rw [worker_step_running data w s l h he, iter_last data _ l hn]
      refine ⟨{ l with exited := true }, ?_, rfl⟩
      simp only
      rw [List.getElem?_set_eq_of_lt _ hw]

/-! ## Invariant of the cursor and the worker pool -/

/-- The pool invariant holds initially. -/
theorem WInv_init (data : List ℚ) (B N : Nat) : WInv data B N (manager_thread_proc_init B N) where
  n_blocks_eq := rfl
  length_eq := by simp [manager_thread_proc_init]
  next_le := Nat.zero_le _
  claimed_eq := rfl
  accum_eq := by
    simp [manager_thread_proc_init, block_sum, pending]
  exited_next := by
    intro l hl h
    simp [manager_thread_proc_init] at hl
    rw [hl.2] at h
    simp at h
  written_eq := ⟨[], by simp [manager_thread_proc_init]⟩
  percentage_eq := by simp [manager_thread_proc_init]
  exited_written := by
    intro l hl h
    simp [manager_thread_proc_init] at hl
    rw [hl.2] at h
    simp at h
  res_zero := by
    intro _ l hl
    simp [manager_thread_proc_init] at hl
    rw [hl.2]

/-- The pool invariant is preserved by every worker step. -/
theorem WInv_worker_step (data : List ℚ) (B N : Nat) (w : Nat) (s : System)
    (inv : WInv data B N s) : WInv data B N (worker_step data w s) := by
  cases h : s.workers[w]? with
  | none => rw [worker_step_none data w s h]; exact inv
  | some l =>
    cases he : l.exited with
    | true => rw [worker_step_exited data w s l h he]; exact inv
    | false =>
      rw [worker_step_running data w s l h he]
      have hsum := sum_map_set pending s.workers w l
      have hpl : pending l = l.res := by simp [pending, he]
      obtain ⟨ks, hks, hpw, hle⟩ := inv.written_eq
      by_cases hn : s.compute_param.next_block_to_compute = s.compute_param.n_blocks
      · rw [iter_last data _ l hn]
        have hnB : s.compute_param.next_block_to_compute = B := hn.trans inv.n_blocks_eq
        refine ⟨inv.n_blocks_eq, ?_, inv.next_le, inv.claimed_eq, ?_, ?_, ?_, ?_, ?_, ?_⟩
        · simpa using inv.length_eq
        · have h2 := hsum { l with exited := true } h
          have : pending { l with exited := true } = 0 := by simp [pending]
          rw [this, hpl] at h2
          have h3 := inv.accum_eq
          simp only
          linarith
        · intro _ _ _; exact hnB
        · refine ⟨ks ++ [s.compute_param.next_block_to_compute], ?_, ?_, ?_⟩
          · simp [hks, inv.n_blocks_eq]
          · rw [List.pairwise_append]
            refine ⟨hpw, List.pairwise_singleton _ _, ?_⟩
            intro a ha b hb
            simp at hb
            subst hb
            exact hle a ha
          · intro k hk
            simp at hk
            rcases hk with hk | hk
            · exact hle k hk
            · exact le_of_eq hk
        · simp
        · intro _ _ _
          simp [hnB, inv.n_blocks_eq]
        · intro h0 l' hl'
          rcases List.mem_or_eq_of_mem_set hl' with hm | hm
          · exact inv.res_zero h0 l' hm
          · subst hm
            exact inv.res_zero h0 l (List.mem_iff_getElem?.2 ⟨w, h⟩)
      · rw [iter_claim data _ l hn]
        have hlt : s.compute_param.next_block_to_compute < B := by
          have := inv.next_le
          have := inv.n_blocks_eq
          omega
        have hno : ∀ l' ∈ s.workers.set w
            { res := block_result data s.compute_param.next_block_to_compute, exited := false },
            l'.exited = true → False := by
          intro l' hl' hex
          rcases List.mem_or_eq_of_mem_set hl' with hm | hm
          · have := inv.exited_next l' hm hex
            omega
          · subst hm
            simp at hex
        refine ⟨inv.n_blocks_eq, ?_, hlt, ?_, ?_, ?_, ?_, ?_, ?_, ?_⟩
        · simpa using inv.length_eq
        · simp [inv.claimed_eq, List.range_succ]
        · have h2 := hsum { res := block_result data s.compute_param.next_block_to_compute,
                            exited := false } h
          have : pending { res := block_result data s.compute_param.next_block_to_compute,
                           exited := false }
              = block_result data s.compute_param.next_block_to_compute := by simp [pending]
          rw [this, hpl] at h2
          have h3 := inv.accum_eq
          simp only
          rw [block_sum_succ]
          linarith
        · intro l' hl' hex; exact (hno l' hl' hex).elim
        · refine ⟨ks ++ [s.compute_param.next_block_to_compute], ?_, ?_, ?_⟩
          · simp [hks, inv.n_blocks_eq]
          · rw [List.pairwise_append]
            refine ⟨hpw, List.pairwise_singleton _ _, ?_⟩
            intro a ha b hb
            simp at hb
            subst hb
            exact hle a ha
          · intro k hk
            simp at hk
            rcases hk with hk | hk
            · exact Nat.le_succ_of_le (hle k hk)
            · simp [hk]
        · simp
        · intro l' hl' hex; exact (hno l' hl' hex).elim
        · intro h0; simp at h0

/-- A manager step writes neither the cursor nor the locals of a worker. -/
theorem manager_step_shared (data : List ℚ) (s : System) :
    (manager_thread_proc_step data s).compute_param = s.compute_param ∧
      (manager_thread_proc_step data s).workers = s.workers := by
  unfold manager_thread_proc_step
  split
  · split <;> simp
  · split
    · split <;> simp
    · simp
  · simp

/-- No step of any thread decreases the cursor. -/
theorem next_mono (data : List ℚ) (t : thread) (s : System) :
    s.compute_param.next_block_to_compute
      ≤ (step data t s).compute_param.next_block_to_compute := by
  cases t with
  | manager =>
    simp only [step]
    rw [(manager_step_shared data s).1]
  | worker w =>
    simp only [step]
    cases h : s.workers[w]? with
    | none => rw [worker_step_none data w s h]
    | some l =>
      cases he : l.exited with
      | true => rw [worker_step_exited data w s l h he]
      | false =>
        rw [worker_step_running data w s l h he]
        by_cases hn : s.compute_param.next_block_to_compute = s.compute_param.n_blocks
        · rw [iter_last data _ l hn]
        · rw [iter_claim data _ l hn]
          exact Nat.le_succ _

/-- The pool invariant depends only on the cursor and the workers. -/
theorem WInv_congr (data : List ℚ) (B N : Nat) (s s' : System)
    (hc : s'.compute_param = s.compute_param) (hw : s'.workers = s.workers)
    (inv : WInv data B N s) : WInv data B N s' := by
  obtain ⟨h1, h2, h3, h4, h5, h6, h7, h8, h9, h10⟩ := inv
  constructor
  · rw [hc]; exact h1
  · rw [hw]; exact h2
  · rw [hc]; exact h3
  · rw [hc]; exact h4
  · rw [hc, hw]; exact h5
  · rw [hc, hw]; exact h6
  · rw [hc]; exact h7
  · rw [hc]; exact h8
  · rw [hc, hw]; exact h9
  · rw [hc, hw]; exact h10

/-- The pool invariant is preserved by every manager step. -/
theorem WInv_manager_step (data : List ℚ) (B N : Nat) (s : System)
    (inv : WInv data B N s) : WInv data B N (manager_thread_proc_step data s) :=
  WInv_congr data B N s _ (manager_step_shared data s).1 (manager_step_shared data s).2 inv

/-! ## Invariant of the manager -/

/-- The manager invariant holds initially. -/
theorem MInv_init (data : List ℚ) (B N : Nat) : MInv data B (manager_thread_proc_init B N) where
  n_blocks_eq := rfl
  index_le := Nat.zero_le _
  seq_res_eq := by simp [manager_thread_proc_init, seq_index, block_sum]
  seq_written_eq := by simp [manager_thread_proc_init, seq_index]
  seq_percentage_eq := by simp [manager_thread_proc_init]
  done_iff := by simp [manager_thread_proc_init]
  par_res_eq := by simp [manager_thread_proc_init]
  par_res_zero := by simp [manager_thread_proc_init]
  joined_exited := by simp [manager_thread_proc_init, joined]

/-- The manager invariant is preserved by every worker step. -/
theorem MInv_worker_step (data : List ℚ) (B : Nat) (w : Nat) (s : System)
    (inv : MInv data B s) : MInv data B (worker_step data w s) := by
  obtain ⟨hp, hpc, hsw⟩ := worker_step_param data w s
  have hidx : seq_index (worker_step data w s) = seq_index s := by
    simp [seq_index, hp, hpc]
  by_cases hret : s.pc = manager_pc.returned
  · have hall : all_exited s = true := by
      have := inv.joined_exited
      rw [joined, hret] at this
      exact this
    rw [worker_step_all_exited data w s hall]
    exact inv
  · refine ⟨?_, ?_, ?_, ?_, ?_, ?_, ?_, ?_, ?_⟩
    · rw [hp]; exact inv.n_blocks_eq
    · rw [hidx]; exact inv.index_le
    · rw [hidx, hp]; exact inv.seq_res_eq
    · rw [hidx, hsw]; exact inv.seq_written_eq
    · rw [hp, hsw]; exact inv.seq_percentage_eq
    · rw [hp, hpc]; exact inv.done_iff
    · intro h; rw [hpc] at h; exact (hret h).elim
    · intro _; rw [hp]; exact inv.par_res_zero hret
    · have hj := inv.joined_exited
      unfold joined at hj ⊢
      rw [hpc]
      cases hc : s.pc with
      | seq_loop i => trivial
      | join_loop j =>
        rw [hc] at hj
        intro w1 hw1
        obtain ⟨l, hl, hle⟩ := hj w1 hw1
        exact ⟨l, worker_step_keeps_exited data w w1 s l hl hle, hle⟩
      | returned => exact (hret hc).elim

/-- The manager invariant is preserved by every manager step. -/
theorem MInv_manager_step (data : List ℚ) (B : Nat) (s : System)
    (inv : MInv data B s) : MInv data B (manager_thread_proc_step data s) := by
  obtain ⟨h1, h2, h3, h4, h5, h6, h7, h8, h9⟩ := inv
  cases hpc : s.pc with
  | seq_loop i =>
    have hidx : seq_index s = i := by simp [seq_index, hpc]
    rw [hidx] at h2 h3 h4
    have hdone : s.param.done = false := by
      cases hd : s.param.done with
      | false => rfl
      | true => rw [h6.1 hd] at hpc; exact manager_pc.noConfusion hpc
    by_cases hlt : i < s.param.n_blocks
    · have hstep : manager_thread_proc_step data s =
          { s with
              param := { s.param with
                seq_res := s.param.seq_res + block_result data i
                seq_percentage := f32_div i s.param.n_blocks }
              seq_written := s.seq_written ++ [f32_div i s.param.n_blocks]
              pc := manager_pc.seq_loop (i + 1) } := by
        simp [manager_thread_proc_step, hpc, hlt, block_result]
      rw [hstep]
      refine ⟨h1, ?_, ?_, ?_, ?_, ?_, ?_, ?_, ?_⟩
      · simp only [seq_index]; rw [← h1]; exact hlt
      · simp only [seq_index]; rw [block_sum_succ, h3]
      · simp only [seq_index]; rw [List.range_succ, List.map_append, h4, h1]; simp
      · simp
      · simp [hdone]
      · intro h; simp at h
      · intro _; exact h8 (by rw [hpc]; simp)
      · simp [joined]
    · have hstep : manager_thread_proc_step data s = { s with pc := manager_pc.join_loop 0 } := by
        simp [manager_thread_proc_step, hpc, hlt]
      have hiB : i = B := by omega
      rw [hstep]
      refine ⟨h1, ?_, ?_, ?_, h5, ?_, ?_, ?_, ?_⟩
      · simp [seq_index, h1]
      · simp only [seq_index]; rw [h3, h1, hiB]
      · simp only [seq_index]; rw [h4, h1, hiB]
      · simp [hdone]
      · intro h; simp at h
      · intro _; exact h8 (by rw [hpc]; simp)
      · simp [joined]
  | join_loop j =>
    have hidx : seq_index s = s.param.n_blocks := by simp [seq_index, hpc]
    have hdone : s.param.done = false := by
      cases hd : s.param.done with
      | false => rfl
      | true => rw [h6.1 hd] at hpc; exact manager_pc.noConfusion hpc
    have hj : ∀ w, w < j → ∃ l, s.workers[w]? = some l ∧ l.exited = true := by
      have := h9
      rw [joined, hpc] at this
      exact this
    cases hw : s.workers[j]? with
    | some l =>
      cases he : l.exited with
      | false =>
        have hstep : manager_thread_proc_step data s = s := by
          simp [manager_thread_proc_step, hpc, hw, he]
        rw [hstep]
        exact ⟨h1, h2, h3, h4, h5, h6, h7, h8, h9⟩
      | true =>
        have hstep : manager_thread_proc_step data s =
            { s with pc := manager_pc.join_loop (j + 1) } := by
          simp [manager_thread_proc_step, hpc, hw, he]
        rw [hstep]
        refine ⟨h1, ?_, ?_, ?_, h5, ?_, ?_, ?_, ?_⟩
        · simp [seq_index, h1]
        · simp only [seq_index]; rw [h3, hidx]
        · simp only [seq_index]; rw [h4, hidx]
        · simp [hdone]
        · intro h; simp at h
        · intro _; exact h8 (by rw [hpc]; simp)
        · simp only [joined]
          intro w hlt
          rcases Nat.lt_succ_iff_lt_or_eq.1 hlt with h | h
          · exact hj w h
          · subst h; exact ⟨l, hw, he⟩
    | none =>
      have hstep : manager_thread_proc_step data s =
          { s with
              param := { s.param with par_res := s.compute_param.accum, done := true }
              pc := manager_pc.returned } := by
        simp [manager_thread_proc_step, hpc, hw]
      rw [hstep]
      refine ⟨h1, ?_, ?_, ?_, h5, ?_, ?_, ?_, ?_⟩
      · simp [seq_index, h1]
      · simp only [seq_index]; rw [h3, hidx]
      · simp only [seq_index]; rw [h4, hidx]
      · simp
      · intro _; rfl
      · intro h; simp at h
      · simp only [joined]
        rw [all_exited_iff]
        intro l hl
        obtain ⟨w, hwl⟩ := List.mem_iff_getElem?.1 hl
        have hlen : s.workers.length ≤ j := by
          rcases Nat.lt_or_ge j s.workers.length with h | h
          · rw [List.getElem?_eq_getElem h] at hw; exact Option.noConfusion hw
          · exact h
        have hwlt : w < s.workers.length := by
          rcases Nat.lt_or_ge w s.workers.length with h | h
          · exact h
          · rw [List.getElem?_eq_none h] at hwl; exact Option.noConfusion hwl
        obtain ⟨l', hl', hle'⟩ := hj w (by omega)
        rw [hwl] at hl'
        injection hl' with hl'
        rw [hl']; exact hle'
  | returned =>
    have hstep : manager_thread_proc_step data s = s := by
      simp [manager_thread_proc_step, hpc]
    rw [hstep]
    exact ⟨h1, h2, h3, h4, h5, h6, h7, h8, h9⟩

/-! ## Invariant of the system along every interleaving -/

/-- The system invariant holds initially. -/
theorem Inv_init (data : List ℚ) (B N : Nat) : Inv data B N (manager_thread_proc_init B N) :=
  ⟨WInv_init data B N, MInv_init data B N⟩

/-- The system invariant is preserved by every step. -/
theorem Inv_step (data : List ℚ) (B N : Nat) (t : thread) (s : System)
    (inv : Inv data B N s) : Inv data B N (step data t s) := by
  cases t with
  | manager => exact ⟨WInv_manager_step data B N s inv.1, MInv_manager_step data B s inv.2⟩
  | worker w => exact ⟨WInv_worker_step data B N w s inv.1, MInv_worker_step data B w s inv.2⟩

/-- A run under `t :: sched` is a step of `t` followed by a run under `sched`. -/
theorem run_cons (data : List ℚ) (t : thread) (sched : List thread) (s : System) :
    run data (t :: sched) s = run data sched (step data t s) := rfl

/-- A run under a concatenation is the composition of the runs. -/
theorem run_append (data : List ℚ) (a b : List thread) (s : System) :
    run data (a ++ b) s = run data b (run data a s) := by
  simp [run, List.foldl_append]

/-- The system invariant is preserved along every interleaving. -/
theorem Inv_run (data : List ℚ) (B N : Nat) (sched : List thread) :
    ∀ s : System, Inv data B N s → Inv data B N (run data sched s) := by
  induction sched with
  | nil => intro s h; exact h
  | cons t sched ih => intro s h; exact ih _ (Inv_step data B N t s h)

/-- The system invariant holds in every reachable state. -/
theorem Inv_reachable (data : List ℚ) (B N : Nat) (sched : List thread) :
    Inv data B N (run data sched (manager_thread_proc_init B N)) :=
  Inv_run data B N sched _ (Inv_init data B N)

/-- The system invariant holds in every reachable state, stated with
`reached`. -/
theorem Inv_reached (data : List ℚ) (B N : Nat) (sched : List thread) :
    Inv data B N (reached data B N sched) :=
  Inv_reachable data B N sched

/-- A worker that has exited stays exited under the steps of any thread. -/
theorem step_keeps_exited (data : List ℚ) (t : thread) (w : Nat) (s : System)
    (l : compute_thread_local) (h : s.workers[w]? = some l) (he : l.exited = true) :
    (step data t s).workers[w]? = some l := by
  cases t with
  | manager => simp only [step]; rw [(manager_step_shared data s).2]; exact h
  | worker w0 => exact worker_step_keeps_exited data w0 w s l h he

/-- A worker that has exited stays exited along every interleaving. -/
theorem run_keeps_exited (data : List ℚ) (w : Nat) (l : compute_thread_local)
    (he : l.exited = true) (sched : List thread) :
    ∀ s : System, s.workers[w]? = some l → (run data sched s).workers[w]? = some l := by
  induction sched with
  | nil => intro s h; exact h
  | cons t sched ih => intro s h; exact ih _ (step_keeps_exited data t w s l h he)

/-! ## Termination: every run can be completed -/

/-- If not all workers have exited, some worker is running. -/
theorem exists_running (s : System) (h : all_exited s = false) :
    ∃ (w : Nat) (l : compute_thread_local), s.workers[w]? = some l ∧ l.exited = false := by
  have : ¬ ∀ l ∈ s.workers, l.exited = true := by
    rw [← all_exited_iff, h]; simp
  push_neg at this
  obtain ⟨l, hl, hne⟩ := this
  obtain ⟨w, hw⟩ := List.mem_iff_getElem?.1 hl
  exact ⟨w, l, hw, by simpa using hne⟩

/-- While the manager has not returned, some thread has a step that decreases
the measure. -/
theorem progress (data : List ℚ) (B N : Nat) (s : System) (inv : Inv data B N s)
    (hpc : s.pc ≠ manager_pc.returned) :
    ∃ t, worker_measure (step data t s) + manager_measure (step data t s)
      < worker_measure s + manager_measure s := by
  cases hall : all_exited s with
  | false =>
    obtain ⟨w, l, hw, he⟩ := exists_running s hall
    refine ⟨thread.worker w, ?_⟩
    obtain ⟨hp, hpc', -⟩ := worker_step_param data w s
    have hlen : (worker_step data w s).workers.length = s.workers.length := by
      rw [worker_step_running data w s l hw he]; simp
    have hm : manager_measure (worker_step data w s) = manager_measure s := by
      simp only [manager_measure, hp, hpc', hlen]
    have hrl : running l = 1 := by simp [running, he]
    have hsum := sum_map_set running s.workers w l
    simp only [step]
    rw [hm, worker_step_running data w s l hw he]
    simp only [worker_measure]
    by_cases hn : s.compute_param.next_block_to_compute = s.compute_param.n_blocks
    · rw [iter_last data _ l hn]
      have h2 := hsum { l with exited := true } hw
      have : running { l with exited := true } = 0 := by simp [running]
      rw [this, hrl] at h2
      simp only
      omega
    · rw [iter_claim data _ l hn]
      have h2 := hsum { res := block_result data s.compute_param.next_block_to_compute,
                        exited := false } hw
      have : running { res := block_result data s.compute_param.next_block_to_compute,
                       exited := false } = 1 := by simp [running]
      rw [this, hrl] at h2
      have h3 := inv.1.next_le
      have h4 := inv.1.n_blocks_eq
      simp only
      omega
  | true =>
    refine ⟨thread.manager, ?_⟩
    obtain ⟨hc, hws⟩ := manager_step_shared data s
    have hwm : worker_measure (manager_thread_proc_step data s) = worker_measure s := by
      simp only [worker_measure, hc, hws]
    simp only [step]
    rw [hwm]
    apply Nat.add_lt_add_left
    cases hp : s.pc with
    | seq_loop i =>
      by_cases hlt : i < s.param.n_blocks
      · simp [manager_thread_proc_step, manager_measure, hp, hlt]
        omega
      · simp [manager_thread_proc_step, manager_measure, hp, hlt]
        omega
    | join_loop j =>
      cases hw : s.workers[j]? with
      | some l =>
        have hl : l ∈ s.workers := List.mem_iff_getElem?.2 ⟨j, hw⟩
        have he := (all_exited_iff s).1 hall l hl
        have hj : j < s.workers.length := by
          rcases Nat.lt_or_ge j s.workers.length with h | h
          · exact h
          · rw [List.getElem?_eq_none h] at hw; exact Option.noConfusion hw
        simp [manager_thread_proc_step, manager_measure, hp, hw, he]
        omega
      | none =>
        simp [manager_thread_proc_step, manager_measure, hp, hw]
    | returned => exact (hpc hp).elim

/-- Every step of every thread either leaves the state as it is (the thread is
blocked or has finished) or strictly decreases the measure: no interleaving
contains more than `worker_measure + manager_measure` effective steps. -/
theorem step_measure (data : List ℚ) (B N : Nat) (t : thread) (s : System)
    (inv : Inv data B N s) :
    step data t s = s ∨
      worker_measure (step data t s) + manager_measure (step data t s)
        < worker_measure s + manager_measure s := by
  cases t with
  | worker w =>
    simp only [step]
    cases hw : s.workers[w]? with
    | none => exact Or.inl (worker_step_none data w s hw)
    | some l =>
      cases he : l.exited with
      | true => exact Or.inl (worker_step_exited data w s l hw he)
      | false =>
        right
        obtain ⟨hp, hpc', -⟩ := worker_step_param data w s
        have hlen : (worker_step data w s).workers.length = s.workers.length := by
          rw [worker_step_running data w s l hw he]; simp
        have hm : manager_measure (worker_step data w s) = manager_measure s := by
          simp only [manager_measure, hp, hpc', hlen]
        have hrl : running l = 1 := by simp [running, he]
        have hsum := sum_map_set running s.workers w l
        rw [hm, worker_step_running data w s l hw he]
        simp only [worker_measure]
        by_cases hn : s.compute_param.next_block_to_compute = s.compute_param.n_blocks
        · rw [iter_last data _ l hn]
          have h2 := hsum { l with exited := true } hw
          have : running { l with exited := true } = 0 := by simp [running]
          rw [this, hrl] at h2
          simp only
          omega
        · rw [iter_claim data _ l hn]
          have h2 := hsum { res := block_result data s.compute_param.next_block_to_compute,
                            exited := false } hw
          have : running { res := block_result data s.compute_param.next_block_to_compute,
                           exited := false } = 1 := by simp [running]
          rw [this, hrl] at h2
          have h3 := inv.1.next_le
          have h4 := inv.1.n_blocks_eq
          simp only
          omega
  | manager =>
    simp only [step]
    obtain ⟨hc, hws⟩ := manager_step_shared data s
    have hwm : worker_measure (manager_thread_proc_step data s) = worker_measure s := by
      simp only [worker_measure, hc, hws]
    rw [hwm]
    cases hp : s.pc with
    | seq_loop i =>
      right
      apply Nat.add_lt_add_left
      by_cases hlt : i < s.param.n_blocks
      · simp [manager_thread_proc_step, manager_measure, hp, hlt]
        omega
      · simp [manager_thread_proc_step, manager_measure, hp, hlt]
        omega
    | join_loop j =>
      cases hw : s.workers[j]? with
      | some l =>
        cases he : l.exited with
        | false =>
          left
          simp [manager_thread_proc_step, hp, hw, he]
        | true =>
          right
          apply Nat.add_lt_add_left
          have hj : j < s.workers.length := by
            rcases Nat.lt_or_ge j s.workers.length with h | h
            · exact h
            · rw [List.getElem?_eq_none h] at hw; exact Option.noConfusion hw
          simp [manager_thread_proc_step, manager_measure, hp, hw, he]
          omega
      | none =>
        right
        apply Nat.add_lt_add_left
        simp [manager_thread_proc_step, manager_measure, hp, hw]
    | returned =>
      left
      simp [manager_thread_proc_step, hp]

/-- Induction on the measure for `exists_complete`. -/
theorem exists_complete_aux (data : List ℚ) (B N : Nat) :
    ∀ (n : Nat) (s : System), worker_measure s + manager_measure s ≤ n → Inv data B N s →
      ∃ sched, (run data sched s).pc = manager_pc.returned := by
  intro n
  induction n with
  | zero =>
    intro s hm inv
    by_cases hpc : s.pc = manager_pc.returned
    · exact ⟨[], hpc⟩
    · obtain ⟨t, ht⟩ := progress data B N s inv hpc
      omega
  | succ n ih =>
    intro s hm inv
    by_cases hpc : s.pc = manager_pc.returned
    · exact ⟨[], hpc⟩
    · obtain ⟨t, ht⟩ := progress data B N s inv hpc
      obtain ⟨sched, hs⟩ := ih (step data t s) (by omega) (Inv_step data B N t s inv)
      exact ⟨t :: sched, by rw [run_cons]; exact hs⟩

/-- From every reachable state the manager can still return: the system has
no deadlock and no infinite run of effective steps. -/
theorem exists_complete (data : List ℚ) (B N : Nat) (s : System) (inv : Inv data B N s) :
    ∃ sched, (run data sched s).pc = manager_pc.returned :=
  exists_complete_aux data B N _ s (le_refl _) inv

/-! ## Consequences of the invariants -/

/-- Once every worker of a non-empty pool has exited, the cursor is at
`n_blocks`. -/
theorem next_eq_of_all_exited (data : List ℚ) (B N : Nat) (hN : 1 ≤ N) (s : System)
    (inv : WInv data B N s) (h : all_exited s = true) :
    s.compute_param.next_block_to_compute = B := by
  have hlen := inv.length_eq
  cases hw : s.workers with
  | nil => rw [hw] at hlen; simp at hlen; omega
  | cons l ls =>
    have hl : l ∈ s.workers := by rw [hw]; exact List.mem_cons_self _ _
    exact inv.exited_next l hl ((all_exited_iff s).1 h l hl)

/-- Once every worker has exited, every block result claimed so far has been
folded into the accumulator. -/
theorem accum_of_all_exited (data : List ℚ) (B N : Nat) (s : System)
    (inv : WInv data B N s) (h : all_exited s = true) :
    s.compute_param.accum = block_sum data s.compute_param.next_block_to_compute := by
  have h0 : (s.workers.map pending).sum = 0 := by
    apply pending_sum_zero
    intro l hl
    simp [pending, (all_exited_iff s).1 h l hl]
  have := inv.accum_eq
  rw [h0, add_zero] at this
  exact this

/-- When `done` is set, all workers have exited. -/
theorem all_exited_of_done (data : List ℚ) (B : Nat) (s : System) (inv : MInv data B s)
    (h : s.param.done = true) : all_exited s = true := by
  have hpc := inv.done_iff.1 h
  have := inv.joined_exited
  rw [joined, hpc] at this
  exact this

/-- For every block count and worker count some interleaving ends with `done`
set. -/
theorem exists_done (data : List ℚ) (B N : Nat) :
    ∃ sched, (reached data B N sched).param.done = true := by
  obtain ⟨sched, h⟩ := exists_complete data B N _ (Inv_init data B N)
  exact ⟨sched, (Inv_reached data B N sched).2.done_iff.2 h⟩

/-- For every block count and worker count some interleaving ends with all
workers exited. -/
theorem exists_all_exited (data : List ℚ) (B N : Nat) :
    ∃ sched, all_exited (reached data B N sched) = true := by
  obtain ⟨sched, h⟩ := exists_done data B N
  exact ⟨sched, all_exited_of_done data B _ (Inv_reached data B N sched).2 h⟩

/-- When `done` is set, the sequential loop has processed all blocks. -/
theorem seq_index_of_done (data : List ℚ) (B : Nat) (s : System) (inv : MInv data B s)
    (h : s.param.done = true) : seq_index s = B := by
  have hpc := inv.done_iff.1 h
  simp [seq_index, hpc, inv.n_blocks_eq]

/-- What the manager has published when `done` is set. -/
theorem results_of_done (data : List ℚ) (B N : Nat) (hN : 1 ≤ N) (s : System)
    (inv : Inv data B N s) (h : s.param.done = true) :
    s.param.par_res = block_sum data B ∧ s.param.seq_res = block_sum data B := by
  have hall := all_exited_of_done data B s inv.2 h
  have hnext := next_eq_of_all_exited data B N hN s inv.1 hall
  constructor
  · rw [inv.2.par_res_eq (inv.2.done_iff.1 h), accum_of_all_exited data B N s inv.1 hall, hnext]
  · rw [inv.2.seq_res_eq, seq_index_of_done data B s inv.2 h]

/-- With `n_blocks = 0`, a worker that has been scheduled at least once has
exited. -/
theorem zero_blocks_exits (data : List ℚ) (N w : Nat) (hw : w < N) (sched : List thread) :
    ∀ s : System, Inv data 0 N s → thread.worker w ∈ sched →
      ∃ l, (run data sched s).workers[w]? = some l ∧ l.exited = true := by
  induction sched with
  | nil => intro s _ h; simp at h
  | cons t sched ih =>
    intro s inv hmem
    rw [run_cons]
    by_cases ht : t = thread.worker w
    · subst ht
      have hn : s.compute_param.next_block_to_compute = s.compute_param.n_blocks := by
        have h1 := inv.1.next_le
        have h2 := inv.1.n_blocks_eq
        omega
      have hlen : w < s.workers.length := by rw [inv.1.length_eq]; exact hw
      obtain ⟨l, hl, hle⟩ := worker_step_exits data w s hn hlen
      exact ⟨l, run_keeps_exited data w l hle sched _ hl, hle⟩
    · have : thread.worker w ∈ sched := by
        rcases List.mem_cons.1 hmem with h | h
        · exact (ht h.symm).elim
        · exact h
      exact ih _ (Inv_step data 0 N t s inv) this

/-- With `n_blocks = 0`, the cursor and the accumulator stay 0. -/
theorem zero_blocks_accum (data : List ℚ) (N : Nat) (s : System) (inv : WInv data 0 N s) :
    s.compute_param.next_block_to_compute = 0 ∧ s.compute_param.accum = 0 := by
  have h0 : s.compute_param.next_block_to_compute = 0 := Nat.le_zero.1 inv.next_le
  refine ⟨h0, ?_⟩
  have hp : (s.workers.map pending).sum = 0 := by
    apply pending_sum_zero
    intro l hl
    have := inv.res_zero h0 l hl
    simp [pending, this]
  have := inv.accum_eq
  rw [hp, h0, add_zero] at this
  rw [this]
  simp [block_sum]

/-- For `n_blocks >= 1` the values the workers store to the progress slot are
numbers and each is at least every value stored before it. -/
theorem written_monotone (data : List ℚ) (B N : Nat) (hB : 1 ≤ B) (sched : List thread) :
    (reached data B N sched).compute_param.written.Pairwise
      (fun a b => progress_le a b = true) := by
  obtain ⟨ks, hks, hpw, -⟩ := (Inv_reached data B N sched).1.written_eq
  rw [hks]
  refine List.Pairwise.map _ ?_ hpw
  intro a b hab
  rw [f32_div_pos _ B hB, f32_div_pos _ B hB]
  simp only [progress_le, decide_eq_true_eq]
  have : (a : ℚ) ≤ b := by exact_mod_cast hab
  exact div_le_div_of_nonneg_right this (Nat.cast_nonneg B)

/-- The sequential pass stores `i / n_blocks` for `i = 0, 1, ...` in this order,
and for `n_blocks >= 1` these are non-decreasing numbers. -/
theorem seq_written_monotone (data : List ℚ) (B N : Nat) (hB : 1 ≤ B) (sched : List thread) :
    (reached data B N sched).seq_written
      = (List.range (seq_index (reached data B N sched))).map
          (fun (i : Nat) => f32_div (i : ℚ) (B : ℚ)) ∧
    (reached data B N sched).seq_written.Pairwise (fun a b => progress_le a b = true) := by
  have h := (Inv_reached data B N sched).2.seq_written_eq
  refine ⟨h, ?_⟩
  rw [h]
  refine List.Pairwise.map _ ?_ (List.pairwise_le_range _)
  intro a b hab
  rw [f32_div_pos _ B hB, f32_div_pos _ B hB]
  simp only [progress_le, decide_eq_true_eq]
  have : (a : ℚ) ≤ b := by exact_mod_cast hab
  exact div_le_div_of_nonneg_right this (Nat.cast_nonneg B)

/-- For `n_blocks >= 1` every progress value stored by a worker or by the
sequential pass is a number in `[0, 1]`. -/
theorem written_in_unit_interval (data : List ℚ) (B N : Nat) (hB : 1 ≤ B)
    (sched : List thread) (v : Option ℚ)
    (hv : v ∈ (reached data B N sched).compute_param.written
      ∨ v ∈ (reached data B N sched).seq_written) :
    ∃ q : ℚ, v = some q ∧ 0 ≤ q ∧ q ≤ 1 := by
  have inv := Inv_reached data B N sched
  have hBpos : (0 : ℚ) < B := by exact_mod_cast hB
  have key : ∀ k : Nat, k ≤ B →
      ∃ q : ℚ, f32_div k B = some q ∧ 0 ≤ q ∧ q ≤ 1 := by
    intro k hk
    refine ⟨(k : ℚ) / B, f32_div_pos _ B hB, ?_, ?_⟩
    · exact div_nonneg (Nat.cast_nonneg k) (Nat.cast_nonneg B)
    · rw [div_le_one hBpos]; exact_mod_cast hk
  rcases hv with hv | hv
  · obtain ⟨ks, hks, -, hle⟩ := inv.1.written_eq
    rw [hks] at hv
    obtain ⟨k, hk, rfl⟩ := List.mem_map.1 hv
    exact key k (le_trans (hle k hk) inv.1.next_le)
  · rw [inv.2.seq_written_eq] at hv
    obtain ⟨k, hk, rfl⟩ := List.mem_map.1 hv
    have : k < seq_index (reached data B N sched) := List.mem_range.1 hk
    exact key k (le_trans (le_of_lt this) inv.2.index_le)

/-- Once a worker has exited, the progress slot of the parallel pass holds
`n_blocks / n_blocks`. -/
theorem par_percentage_of_exited (data : List ℚ) (B N : Nat) (sched : List thread)
    (h : (reached data B N sched).workers.any (fun l => l.exited) = true) :
    (reached data B N sched).par_percentage = f32_div B B := by
  obtain ⟨l, hl, hle⟩ := List.any_eq_true.1 h
  exact (Inv_reached data B N sched).1.exited_written l hl hle

/-- When `done` is set and the pool is not empty, some worker has exited. -/
theorem any_exited_of_done (data : List ℚ) (B N : Nat) (hN : 1 ≤ N) (sched : List thread)
    (h : (reached data B N sched).param.done = true) :
    (reached data B N sched).workers.any (fun l => l.exited) = true := by
  have inv := Inv_reached data B N sched
  have hall := all_exited_of_done data B _ inv.2 h
  have hlen := inv.1.length_eq
  cases hw : (reached data B N sched).workers with
  | nil => rw [hw] at hlen; simp at hlen; omega
  | cons l ls =>
    have hl : l ∈ (reached data B N sched).workers := by rw [hw]; exact List.mem_cons_self _ _
    have := (all_exited_iff _).1 hall l hl
    simp [this]

/-- The progress values of both passes at the moment `done` is set. -/
theorem percentages_of_done (data : List ℚ) (B N : Nat) (hB : 1 ≤ B) (hN : 1 ≤ N)
    (sched : List thread) (h : (reached data B N sched).param.done = true) :
    (reached data B N sched).par_percentage = some 1 ∧
    (reached data B N sched).param.seq_percentage = some (((B - 1 : Nat) : ℚ) / (B : ℚ)) := by
  have inv := Inv_reached data B N sched
  constructor
  · rw [par_percentage_of_exited data B N sched (any_exited_of_done data B N hN sched h),
      f32_div_self B hB]
  · rw [inv.2.seq_percentage_eq, inv.2.seq_written_eq, seq_index_of_done data B _ inv.2 h,
      getLast?_map_range _ B hB]
    simp only [Option.getD_some]
    exact f32_div_pos _ B hB

/-! ## The block reducer on concrete blocks -/

/-- The value of `calculate_block` on a block that starts 1, -2 and continues
with zeros: 2, although the pair (1, 0) has value -4. -/
theorem calculate_block_signed (n : Nat) :
    calculate_block (ptr_add (1 :: -2 :: List.replicate n 0) 0) (n + 2) = 2 := by
  have hd0 : ptr_add (1 :: -2 :: List.replicate n 0) 0 0 = 1 := by simp [ptr_add]
  have hd1 : ptr_add (1 :: -2 :: List.replicate n 0) 0 1 = -2 := by simp [ptr_add]
  have hdj : ∀ j, ptr_add (1 :: -2 :: List.replicate n 0) 0 (j + 2) = 0 := by
    intro j
    simp only [ptr_add, Nat.zero_add, List.getD_cons_succ, List.getD_eq_getElem?_getD,
      List.getElem?_cons_succ, List.getElem?_replicate]
    split <;> rfl
  unfold calculate_block
  generalize ptr_add (1 :: -2 :: List.replicate n 0) 0 = d at hd0 hd1 hdj
  rw [range_add_two]
  simp only [List.foldl_cons, List.foldl_map, hd0, hd1, hdj, fabsf]
  have e1 : (if |(1 : ℚ) * 1 + 1| > 0 then (1 : ℚ) * 1 + 1 else 0) = 2 := by norm_num
  have e2 : (if |(1 : ℚ) * -2 + 1| > 2 then (1 : ℚ) * -2 + 1 else 2) = 2 := by norm_num
  have e3 : (if |(-2 : ℚ) * 1 + -2| > 2 then (-2 : ℚ) * 1 + -2 else 2) = -4 := by norm_num
  have e4 : (if |(-2 : ℚ) * -2 + -2| > -4 then (-2 : ℚ) * -2 + -2 else -4) = 2 := by norm_num
  rw [e1, e2]
  rw [foldl_fixed _ (2 : ℚ) (List.range n) (by intro j _; norm_num)]
  rw [e3, e4]
  rw [foldl_fixed _ (2 : ℚ) (List.range n) (by intro j _; norm_num)]
  apply foldl_fixed
  intro i _
  simp only [zero_mul, add_zero, abs_zero]
  rw [show (if (0 : ℚ) > 2 then (0 : ℚ) else 2) = 2 by norm_num]
  rw [show (if (0 : ℚ) > 2 then (0 : ℚ) else 2) = 2 by norm_num]
  apply foldl_fixed
  intro j _
  norm_num

/-- On the block 1, 2, 3, 4 (all samples positive) `calculate_block` returns
20, the largest value `4 * 4 + 4`. -/
theorem calculate_block_example :
    calculate_block (ptr_add [1, 2, 3, 4] 0) 4 = 20 := by
  simp [calculate_block, ptr_add, fabsf, List.range_succ]
  norm_num [abs_of_pos]

/-! ## The container -/

/-- The image of a `k`-byte integer has `k` bytes. -/
theorem length_le_bytes (k x : Nat) : (le_bytes k x).length = k := by
  induction k generalizing x with
  | zero => rfl
  | succ k ih => simp [le_bytes, ih]

/-- Reading back the image of a `k`-byte integer gives the integer modulo `256
^ k`. -/
theorem le_value_le_bytes (k x : Nat) : le_value (le_bytes k x) = x % 256 ^ k := by
  induction k generalizing x with
  | zero => simp [le_bytes, le_value, Nat.mod_one]
  | succ k ih =>
    simp only [le_bytes, le_value, ih]
    rw [pow_succ, Nat.mul_comm (256 ^ k) 256, Nat.mod_mul]

/-- The image of an `f32` array has four bytes per sample. -/
theorem length_f32_bytes (data : List Nat) : (f32_bytes data).length = 4 * data.length := by
  induction data with
  | nil => rfl
  | cons x data ih =>
    simp only [f32_bytes, List.flatMap_cons, List.length_append, length_le_bytes,
      List.length_cons] at *
    rw [ih]
    omega

/-- Reading back the image of an array of 32-bit patterns gives the array. -/
theorem f32_array_f32_bytes (data : List Nat) (h : ∀ x ∈ data, x < 2 ^ 32) :
    f32_array (f32_bytes data) = data := by
  induction data with
  | nil => rfl
  | cons x data ih =>
    have hx : x < 2 ^ 32 := h x (List.mem_cons_self _ _)
    have ih2 := ih (fun y hy => h y (List.mem_cons_of_mem _ hy))
    have hv : le_value (le_bytes 4 x) = x := by
      rw [le_value_le_bytes]
      exact Nat.mod_eq_of_lt (by simpa using hx)
    have hstep : f32_array (le_bytes 4 x ++ f32_bytes data)
        = le_value (le_bytes 4 x) :: f32_array (f32_bytes data) := rfl
    have hcons : f32_bytes (x :: data) = le_bytes 4 x ++ f32_bytes data := by
      simp only [f32_bytes, List.flatMap_cons]
    rw [hcons, hstep, ih2, hv]

/-- Reading `n` single bytes from a stream that starts with `n` bytes delivers
exactly them. -/
theorem fread_bytes_exact (n : Nat) (a b : List Nat) (h : a.length = n) :
    (fread 1 n (a ++ b)).items = n ∧ (fread 1 n (a ++ b)).bytes = a ∧
      (fread 1 n (a ++ b)).rest = b := by
  have hmin : min n ((a ++ b).length / 1) = n := by
    rw [Nat.div_one, List.length_append, h]
    exact Nat.min_eq_left (Nat.le_add_right _ _)
  simp only [fread, hmin, Nat.mul_one]
  exact ⟨trivial, List.take_left' h, List.drop_left' h⟩

/-- The read loop stops at once when nothing remains to be read. -/
theorem load_data_loop_done (f mem : List Nat) (fuel : Nat) :
    load_data_loop f mem 0 fuel = some mem := by
  cases fuel <;> simp [load_data_loop]

/-- The bound on the number of passes never cuts the read loop short: with a
bound of at least `remaining`, one more pass allowed changes nothing. -/
theorem load_data_loop_fuel (fuel : Nat) :
    ∀ (f mem : List Nat) (remaining : Nat), remaining ≤ fuel →
      load_data_loop f mem remaining (fuel + 1) = load_data_loop f mem remaining fuel := by
  induction fuel with
  | zero =>
    intro f mem remaining h
    have h0 : remaining = 0 := Nat.le_zero.1 h
    subst h0
    simp [load_data_loop]
  | succ fuel ih =>
    intro f mem remaining h
    by_cases h0 : remaining = 0
    · subst h0
      simp [load_data_loop]
    · by_cases hi : (fread 4 remaining f).items = 0
      · simp [load_data_loop, h0, hi]
      · have hle : remaining - (fread 4 remaining f).items ≤ fuel := by omega
        have := ih (fread 4 remaining f).rest (mem ++ (fread 4 remaining f).bytes)
          (remaining - (fread 4 remaining f).items) hle
        rw [load_data_loop, if_neg h0, if_neg hi, this]
        conv => rhs; rw [load_data_loop, if_neg h0, if_neg hi]

/-- The read loop fills the buffer from a stream that holds exactly the
payload. -/
theorem load_data_loop_full (payload : List Nat) (len : Nat) (h : payload.length = 4 * len) :
    load_data_loop payload [] len len = some payload := by
  cases len with
  | zero =>
    have : payload = [] := List.length_eq_zero.1 (by simpa using h)
    rw [this]
    exact load_data_loop_done _ _ _
  | succ n =>
    have hitems : (fread 4 (n + 1) payload).items = n + 1 := by
      simp only [fread, h]
      rw [Nat.mul_div_cancel_left _ (by decide : 0 < 4)]
      exact Nat.min_self _
    have hbytes : (fread 4 (n + 1) payload).bytes = payload := by
      have : (fread 4 (n + 1) payload).bytes
          = payload.take ((fread 4 (n + 1) payload).items * 4) := rfl
      rw [this, hitems]
      exact List.take_of_length_le (by omega)
    simp only [load_data_loop]
    rw [hitems, hbytes]
    simp only [Nat.succ_ne_zero, if_false, Nat.sub_self, List.nil_append]
    exact load_data_loop_done _ _ _

/-- What `load_data` does on a file made of an 8-byte length, a digest of
`BLAKE2B_OUTBYTES` bytes and a payload of `4 * len` bytes. -/
theorem load_data_container (blake2b : List Nat → Option (List Nat))
    (len : Nat) (hash payload : List Nat) (hlen : len < 2 ^ 64)
    (hhash : hash.length = BLAKE2B_OUTBYTES) (hpay : payload.length = 4 * len) :
    load_data blake2b (some (le_bytes 8 len ++ hash ++ payload)) =
      match blake2b payload with
      | none => load_result.fail load_failure.hash_failed
      | some hash_computed =>
        if hash ≠ hash_computed then load_result.fail load_failure.hash_mismatch
        else load_result.ok (f32_array payload) len := by
  have h1 := fread_bytes_exact 8 (le_bytes 8 len) (hash ++ payload) (length_le_bytes 8 len)
  have h2 := fread_bytes_exact BLAKE2B_OUTBYTES hash payload hhash
  have hv : le_value (le_bytes 8 len) = len := by
    rw [le_value_le_bytes]
    exact Nat.mod_eq_of_lt (by simpa using hlen)
  cases hb : blake2b payload <;>
  · simp only [load_data]
    rw [List.append_assoc, h1.1, h1.2.1, h1.2.2, h2.1, h2.2.1, h2.2.2, hv,
      load_data_loop_full payload len hpay]
    simp [hb]

/-- The layout of the file written by `prepare_data_file`. -/
theorem prepare_data_file_eq (blake2b : List Nat → Option (List Nat)) (data file : List Nat)
    (h : prepare_data_file blake2b data = some file) :
    ∃ hash, blake2b (f32_bytes data) = some hash ∧
      file = le_bytes 8 data.length ++ hash ++ f32_bytes data := by
  unfold prepare_data_file at h
  cases hb : blake2b (f32_bytes data) with
  | none => rw [hb] at h; exact Option.noConfusion h
  | some hash =>
    rw [hb] at h
    injection h with h
    exact ⟨hash, rfl, h.symm⟩

/-- The rejection of a changed payload rests on the digest: under a digest
that does not separate the two payloads, `load_data` accepts the changed
container and delivers the changed samples. -/
theorem load_data_accepts_colliding_payload :
    prepare_data_file const_digest [1, 513]
      = some (le_bytes 8 2 ++ List.replicate 64 0 ++ [1, 0, 0, 0, 1, 2, 0, 0]) ∧
    load_data const_digest
        (some ((le_bytes 8 2 ++ List.replicate 64 0 ++ [1, 0, 0, 0, 1, 2, 0, 0]).set
          (8 + 64 + 1) 7))
      = load_result.ok [1793, 513] 2 := by
  decide

/-! # The claims -/

/-- C1 (violated by the code): on the block 1, -2, 0, ..., 0 of `BLOCK_SIZE`
samples `calculate_block` returns 2, while the pair (i, j) = (1, 0) has
`block[i]*block[j] + block[i] = -4`, of absolute value 4.  The same happens on
the two-sample block 1, -2. -/
theorem C1_calculate_block_not_max_abs :
    signed_block.length = BLOCK_SIZE ∧
    calculate_block (block_ptr signed_block 0) BLOCK_SIZE = 2 ∧
    fabsf (block_ptr signed_block 0 1 * block_ptr signed_block 0 0
      + block_ptr signed_block 0 1) = 4 ∧
    calculate_block (ptr_add [1, -2] 0) 2 = 2 ∧
    fabsf (ptr_add [1, -2] 0 1 * ptr_add [1, -2] 0 0 + ptr_add [1, -2] 0 1) = 4 := by
  refine ⟨?_, ?_, ?_, ?_, ?_⟩
  · simp only [signed_block, List.length_cons, List.length_replicate, BLOCK_SIZE_eq]
  · have h := calculate_block_signed 4094
    have hb : block_ptr signed_block 0 = ptr_add (1 :: -2 :: List.replicate 4094 0) 0 := by
      simp only [block_ptr, signed_block, Nat.zero_mul]
    rw [hb, BLOCK_SIZE_eq]
    exact h
  · simp only [block_ptr, signed_block, Nat.zero_mul, ptr_add, fabsf]
    norm_num
  · exact calculate_block_signed 0
  · simp only [ptr_add, fabsf]
    norm_num

/-- C2: with each critical section of `compute_thread_proc` one atomic step,
for every block count `B`, every worker count `N >= 1` and every interleaving:
the blocks claimed so far are `0, 1, ..., next_block_to_compute - 1` in this
order (strictly increasing, none twice, none skipped), the cursor never
exceeds `n_blocks = B` and no step decreases it, and once all workers have
exited the blocks claimed are exactly `0, 1, ..., B - 1`.  Interleavings under
which all workers exit exist. -/
theorem C2_claims_cover_blocks_once (data : List ℚ) (B N : Nat) (hN : 1 ≤ N) :
    (∃ sched, all_exited (reached data B N sched) = true) ∧
    ∀ sched : List thread,
      (reached data B N sched).compute_param.claimed
        = List.range (reached data B N sched).compute_param.next_block_to_compute ∧
      (reached data B N sched).compute_param.claimed.Pairwise (· < ·) ∧
      (reached data B N sched).compute_param.n_blocks = B ∧
      (reached data B N sched).compute_param.next_block_to_compute ≤ B ∧
      (∀ t : thread, (reached data B N sched).compute_param.next_block_to_compute
        ≤ (step data t (reached data B N sched)).compute_param.next_block_to_compute) ∧
      (all_exited (reached data B N sched) = true →
        (reached data B N sched).compute_param.claimed = List.range B) := by
  refine ⟨exists_all_exited data B N, ?_⟩
  intro sched
  have inv := (Inv_reached data B N sched).1
  refine ⟨inv.claimed_eq, ?_, inv.n_blocks_eq, inv.next_le, ?_, ?_⟩
  · rw [inv.claimed_eq]; exact List.pairwise_lt_range _
  · intro t; exact next_mono data t _
  · intro h
    rw [inv.claimed_eq, next_eq_of_all_exited data B N hN _ inv h]

/-- Witness for C2: two blocks, two workers, the interleaving 0, 1, 0, 1. -/
theorem C2_claims_cover_blocks_once_witness :
    1 ≤ 2 ∧
    all_exited (reached two_blocks 2 2 [thread.worker 0, thread.worker 1, thread.worker 0,
        thread.worker 1]) = true ∧
    (reached two_blocks 2 2 [thread.worker 0, thread.worker 1, thread.worker 0,
        thread.worker 1]).compute_param.claimed = List.range 2 :=
  ⟨by decide, by decide,
    ((C2_claims_cover_blocks_once two_blocks 2 2 (by decide)).2
      [thread.worker 0, thread.worker 1, thread.worker 0, thread.worker 1]).2.2.2.2.2
      (by decide)⟩

/-- C3: for every sample buffer, every worker count `N >= 1` and every
interleaving: once all workers have exited the accumulator equals the sum of
`calculate_block` over the blocks `0, ..., n_blocks - 1`, and when the manager
has set `done`, `par_res` and `seq_res` both equal that sum, hence each
other.  Interleavings under which the manager sets `done` exist. -/
theorem C3_par_res_eq_seq_res (data : List ℚ) (B N : Nat) (hN : 1 ≤ N) :
    (∃ sched, (reached data B N sched).param.done = true) ∧
    ∀ sched : List thread,
      (all_exited (reached data B N sched) = true →
        (reached data B N sched).compute_param.accum = block_sum data B) ∧
      ((reached data B N sched).param.done = true →
        (reached data B N sched).param.par_res = block_sum data B ∧
        (reached data B N sched).param.seq_res = block_sum data B ∧
        (reached data B N sched).param.par_res = (reached data B N sched).param.seq_res) := by
  refine ⟨exists_done data B N, ?_⟩
  intro sched
  have inv := Inv_reached data B N sched
  constructor
  · intro h
    rw [accum_of_all_exited data B N _ inv.1 h, next_eq_of_all_exited data B N hN _ inv.1 h]
  · intro h
    obtain ⟨h1, h2⟩ := results_of_done data B N hN _ inv h
    exact ⟨h1, h2, h1.trans h2.symm⟩

/-- Witness for C3: two blocks, two workers. -/
theorem C3_par_res_eq_seq_res_witness :
    1 ≤ 2 ∧ (reached two_blocks 2 2 sched_done).param.done = true ∧
    (reached two_blocks 2 2 sched_done).param.par_res
      = (reached two_blocks 2 2 sched_done).param.seq_res :=
  ⟨by decide, by decide,
    (((C3_par_res_eq_seq_res two_blocks 2 2 (by decide)).2 sched_done).2 (by decide)).2.2⟩

/-- C4: when `n_blocks = 0`, in every interleaving no block is ever claimed
and the accumulator stays 0, every worker that has entered its critical
section has exited, the sequential loop runs no iteration (it stores no
progress value and `seq_res` stays 0), and when the manager has set `done`,
`seq_res = par_res = 0`.  Interleavings under which the manager sets `done`
exist. -/
theorem C4_zero_blocks (data : List ℚ) (N : Nat) :
    (∃ sched, (reached data 0 N sched).param.done = true) ∧
    ∀ sched : List thread,
      (reached data 0 N sched).compute_param.claimed = [] ∧
      (reached data 0 N sched).compute_param.next_block_to_compute = 0 ∧
      (reached data 0 N sched).compute_param.accum = 0 ∧
      (∀ w, w < N → thread.worker w ∈ sched →
        ∃ l, (reached data 0 N sched).workers[w]? = some l ∧ l.exited = true) ∧
      (reached data 0 N sched).seq_written = [] ∧
      (reached data 0 N sched).param.seq_res = 0 ∧
      ((reached data 0 N sched).param.done = true →
        (reached data 0 N sched).param.seq_res = 0 ∧
        (reached data 0 N sched).param.par_res = 0) := by
  refine ⟨exists_done data 0 N, ?_⟩
  intro sched
  have inv := Inv_reached data 0 N sched
  obtain ⟨hnext, hacc⟩ := zero_blocks_accum data N _ inv.1
  have hidx : seq_index (reached data 0 N sched) = 0 := Nat.le_zero.1 inv.2.index_le
  have hseq : (reached data 0 N sched).param.seq_res = 0 := by
    rw [inv.2.seq_res_eq, hidx]; simp [block_sum]
  refine ⟨?_, hnext, hacc, ?_, ?_, hseq, ?_⟩
  · rw [inv.1.claimed_eq, hnext]; rfl
  · intro w hw hmem
    exact zero_blocks_exits data N w hw sched _ (Inv_init data 0 N) hmem
  · rw [inv.2.seq_written_eq, hidx]; rfl
  · intro h
    exact ⟨hseq, by rw [inv.2.par_res_eq (inv.2.done_iff.1 h), hacc]⟩

/-- Witness for C4: a buffer shorter than one block, two workers. -/
theorem C4_zero_blocks_witness :
    (reached short_buffer 0 2 [thread.worker 0, thread.worker 1, thread.manager,
        thread.manager, thread.manager, thread.manager]).param.done = true ∧
    (reached short_buffer 0 2 [thread.worker 0, thread.worker 1, thread.manager,
        thread.manager, thread.manager, thread.manager]).param.seq_res = 0 ∧
    (reached short_buffer 0 2 [thread.worker 0, thread.worker 1, thread.manager,
        thread.manager, thread.manager, thread.manager]).param.par_res = 0 :=
  ⟨by decide,
    ((C4_zero_blocks short_buffer 2).2 [thread.worker 0, thread.worker 1, thread.manager,
        thread.manager, thread.manager, thread.manager]).2.2.2.2.2.2 (by decide)⟩

/-- C5 (violated by the code): with `n_blocks = 0` and the two workers of
`N_THREADS`, both critical sections store `0 / 0`, which is not a number, so
the second value stored is not greater than or equal to the first. -/
theorem C5_progress_not_monotone_zero_blocks :
    (reached short_buffer (main_n_blocks short_buffer.length) N_THREADS
      [thread.worker 0, thread.worker 1]).compute_param.written = [none, none] ∧
    progress_le none none = false :=
  ⟨by decide, rfl⟩

/-- C6 (refuted as stated): with two blocks and two workers, when the manager
has set `done` the progress of the sequential pass is 1/2, which is not 1.0 up
to 1E-4; and after worker 0 has exited, the progress of the parallel pass is
1.0 while `done` is still false. -/
theorem C6_progress_one_iff_done_counterexample :
    ((two_blocks_run sched_done).param.done = true ∧
      (two_blocks_run sched_done).param.seq_percentage = some (1 / 2) ∧
      near_one (1 / 10000) (two_blocks_run sched_done).param.seq_percentage = false) ∧
    ((two_blocks_run sched_early).param.done = false ∧
      (two_blocks_run sched_early).par_percentage = some 1 ∧
      near_one (1 / 10000) (two_blocks_run sched_early).par_percentage = true) := by
  have hB : main_n_blocks two_blocks.length = 2 := by
    unfold main_n_blocks two_blocks
    rw [List.length_replicate]
    exact Nat.mul_div_cancel 2 (by decide : 0 < BLOCK_SIZE)
  have hN : N_THREADS = 2 := rfl
  simp only [two_blocks_run]
  rw [hB, hN]
  have h1 : (reached two_blocks 2 2 sched_done).param.done = true := by decide
  have h2 := (percentages_of_done two_blocks 2 2 (by decide) (by decide) sched_done h1).2
  have h3 : (reached two_blocks 2 2 sched_done).param.seq_percentage = some (1 / 2) := by
    rw [h2]; norm_num
  have h4 : (reached two_blocks 2 2 sched_early).par_percentage = some 1 := by
    rw [par_percentage_of_exited two_blocks 2 2 sched_early (by decide)]
    exact f32_div_self 2 (by decide)
  refine ⟨⟨h1, h3, ?_⟩, ⟨by decide, h4, ?_⟩⟩
  · rw [h3]
    simp only [near_one, decide_eq_false_iff_not]
    norm_num [abs_le]
  · rw [h4]
    simp only [near_one, decide_eq_true_eq]
    norm_num

/-- C6 (as amended): for `n_blocks >= 1` and at least one worker, in every
interleaving: when the manager has set `done`, the progress of the parallel
pass is exactly 1 and the progress of the sequential pass is
`(n_blocks - 1) / n_blocks`; the progress of the parallel pass is 1 as soon
as one worker has exited. -/
theorem C6_progress_at_done (data : List ℚ) (B N : Nat) (hB : 1 ≤ B) (hN : 1 ≤ N)
    (sched : List thread) :
    ((reached data B N sched).param.done = true →
      (reached data B N sched).par_percentage = some 1 ∧
      (reached data B N sched).param.seq_percentage = some (((B - 1 : Nat) : ℚ) / (B : ℚ))) ∧
    ((reached data B N sched).workers.any (fun l => l.exited) = true →
      (reached data B N sched).par_percentage = some 1) := by
  constructor
  · exact percentages_of_done data B N hB hN sched
  · intro h
    rw [par_percentage_of_exited data B N sched h, f32_div_self B hB]

/-- Witness for C6 as amended: two blocks, two workers. -/
theorem C6_progress_at_done_witness :
    1 ≤ 2 ∧ (reached two_blocks 2 2 sched_done).param.done = true ∧
    (reached two_blocks 2 2 sched_done).par_percentage = some 1 ∧
    (reached two_blocks 2 2 sched_done).param.seq_percentage
      = some (((2 - 1 : Nat) : ℚ) / ((2 : Nat) : ℚ)) :=
  ⟨by decide, by decide,
    (C6_progress_at_done two_blocks 2 2 (by decide) (by decide) sched_done).1 (by decide)⟩

/-- C7 (violated by the code): with `n_blocks = 0` the first critical section
of a worker divides by zero; the value it stores to the progress slot is not
a number. -/
theorem C7_progress_division_by_zero :
    (reached short_buffer (main_n_blocks short_buffer.length) N_THREADS
      [thread.worker 0]).compute_param.written = [none] ∧
    (reached short_buffer (main_n_blocks short_buffer.length) N_THREADS
      [thread.worker 0]).par_percentage = none ∧
    f32_div ((0 : Nat) : ℚ) ((main_n_blocks short_buffer.length : Nat) : ℚ) = none :=
  ⟨by decide, by decide, by simp [f32_div, main_n_blocks, short_buffer, BLOCK_SIZE_eq]⟩

/-- C8: `BLOCK_SIZE` is 4096 and `main` sets `n_blocks` to the quotient of the
loaded length by it; for every block `k < n_blocks` each of the `BLOCK_SIZE`
indices `k * BLOCK_SIZE + i` read for that block lies inside the buffer and the
read yields that element of the buffer; different blocks share no index; and
an index of the buffer belongs to a block exactly when it is below
`L - L mod BLOCK_SIZE`, so the trailing `L mod BLOCK_SIZE` elements belong to
no block.  The blocks the workers claim and the blocks the sequential pass has
processed all have `k < n_blocks`. -/
theorem C8_blocks_partition_buffer (data : List ℚ) :
    BLOCK_SIZE = 4096 ∧
    main_n_blocks data.length = data.length / 4096 ∧
    (∀ k i, k < main_n_blocks data.length → i < BLOCK_SIZE →
      block_index k i < data.length ∧
      block_index k i < (k + 1) * BLOCK_SIZE ∧ k * BLOCK_SIZE ≤ block_index k i ∧
      data[block_index k i]? = some (block_ptr data k i)) ∧
    (∀ k k' i i', i < BLOCK_SIZE → i' < BLOCK_SIZE →
      block_index k i = block_index k' i' → k = k' ∧ i = i') ∧
    (∀ j, j < data.length →
      ((∃ k i, k < main_n_blocks data.length ∧ i < BLOCK_SIZE ∧ block_index k i = j)
        ↔ j < data.length - data.length % BLOCK_SIZE)) ∧
    (∀ (N : Nat) (sched : List thread),
      (∀ k ∈ (reached data (main_n_blocks data.length) N sched).compute_param.claimed,
        k < main_n_blocks data.length) ∧
      seq_index (reached data (main_n_blocks data.length) N sched)
        ≤ main_n_blocks data.length) := by
  have hbs : BLOCK_SIZE = 4096 := BLOCK_SIZE_eq
  have hin : ∀ k i, k < main_n_blocks data.length → i < BLOCK_SIZE →
      block_index k i < data.length := by
    intro k i hk hi
    simp only [main_n_blocks, block_index, hbs] at *
    omega
  refine ⟨hbs, by simp [main_n_blocks, hbs], ?_, ?_, ?_, ?_⟩
  · intro k i hk hi
    refine ⟨hin k i hk hi, ?_, ?_, ?_⟩
    · simp only [block_index, hbs] at *; omega
    · simp only [block_index]; omega
    · have h := hin k i hk hi
      simp only [block_ptr, ptr_add, block_index] at *
      rw [List.getD_eq_getElem?_getD, List.getElem?_eq_getElem h]
      rfl
  · intro k k' i i' hi hi' h
    simp only [block_index, hbs] at *
    omega
  · intro j hj
    constructor
    · rintro ⟨k, i, hk, hi, rfl⟩
      simp only [main_n_blocks, block_index, hbs] at *
      omega
    · intro h
      refine ⟨j / BLOCK_SIZE, j % BLOCK_SIZE, ?_, ?_, ?_⟩
      · simp only [main_n_blocks, hbs] at *; omega
      · simp only [hbs]; omega
      · simp only [block_index, hbs]; omega
  · intro N sched
    have inv := Inv_reached data (main_n_blocks data.length) N sched
    refine ⟨?_, inv.2.index_le⟩
    intro k hk
    rw [inv.1.claimed_eq] at hk
    exact lt_of_lt_of_le (List.mem_range.1 hk) inv.1.next_le

/-- Witness for C8: a buffer of two blocks and three trailing samples. -/
theorem C8_blocks_partition_buffer_witness :
    block_index 1 4095 < (List.replicate 8195 (1 : ℚ)).length :=
  ((C8_blocks_partition_buffer (List.replicate 8195 1)).2.2.1 1 4095
    (by simp only [main_n_blocks, BLOCK_SIZE_eq, List.length_replicate]; decide)
    (by simp only [BLOCK_SIZE_eq]; decide)).1

/-- C9: for every sample buffer (each sample a 32-bit pattern, the byte size
`sizeof *data * len` a `size_t`) and every digest function with
`BLAKE2B_OUTBYTES` bytes of output, `load_data` applied to the file that
`prepare_data_file` writes for the buffer returns 0 and delivers the same
length and the same samples. -/
theorem C9_load_data_prepare_data_file (blake2b : List Nat → Option (List Nat))
    (data file : List Nat)
    (hdig : ∀ input hash, blake2b input = some hash → hash.length = BLAKE2B_OUTBYTES)
    (hbits : ∀ x ∈ data, x < 2 ^ 32) (hlen : 4 * data.length < 2 ^ 64)
    (hprep : prepare_data_file blake2b data = some file) :
    load_data blake2b (some file) = load_result.ok data data.length ∧
    (load_data blake2b (some file)).status = 0 := by
  obtain ⟨hash, hb, rfl⟩ := prepare_data_file_eq blake2b data file hprep
  have h := load_data_container blake2b data.length hash (f32_bytes data) (by omega)
    (hdig _ _ hb) (length_f32_bytes data)
  rw [hb] at h
  simp only [ne_eq, not_true_eq_false, if_false] at h
  rw [f32_array_f32_bytes data hbits] at h
  rw [h]
  exact ⟨rfl, rfl⟩

/-- Witness for C9: the buffer with the bit patterns 1 and 513 under the
stand-in digest. -/
theorem C9_load_data_prepare_data_file_witness :
    prepare_data_file sum_digest [1, 513] = some sample_container ∧
    load_data sum_digest (some sample_container) = load_result.ok [1, 513] 2 :=
  ⟨by decide,
    (C9_load_data_prepare_data_file sum_digest [1, 513] sample_container
      (by
        intro input hash h
        simp only [sum_digest, Option.some.injEq] at h
        rw [← h, List.length_replicate])
      (by decide) (by decide) (by decide)).1⟩

/-- C10 (refuted as stated): under the stand-in digest, a container whose
payload byte 1 was changed from 0 to 7 is rejected at the digest comparison, a
container cut off inside the payload is rejected at the read loop, and a file
that cannot be opened is rejected at `fopen`; the caller receives the same
value -1 in all three cases. -/
theorem C10_corruption_status_counterexample :
    sample_container[8 + 64 + 1]? = some 0 ∧
    load_data sum_digest (some (sample_container.set (8 + 64 + 1) 7))
      = load_result.fail load_failure.hash_mismatch ∧
    load_data sum_digest (some (sample_container.take 78))
      = load_result.fail load_failure.read_data ∧
    load_data sum_digest none = load_result.fail load_failure.open_failed ∧
    (load_result.fail load_failure.hash_mismatch).status
      = (load_result.fail load_failure.read_data).status ∧
    (load_result.fail load_failure.hash_mismatch).status
      = (load_result.fail load_failure.open_failed).status ∧
    (load_result.fail load_failure.hash_mismatch).status = -1 := by
  decide

/-- C10 (as amended): for every container written by `prepare_data_file` (for
a buffer whose byte size is a `size_t`) and every change of one payload byte after which the digest of the payload differs
from the digest of the original payload, `load_data` fails at the digest check
(or at the digest computation) and stores no buffer and no length; the value it
returns is -1, the same value it returns when the file cannot be opened. -/
theorem C10_changed_payload_rejected (blake2b : List Nat → Option (List Nat))
    (data file : List Nat) (j b : Nat)
    (hdig : ∀ input hash, blake2b input = some hash → hash.length = BLAKE2B_OUTBYTES)
    (hlen : 4 * data.length < 2 ^ 64)
    (hprep : prepare_data_file blake2b data = some file)
    (hdiff : blake2b ((f32_bytes data).set j b) ≠ blake2b (f32_bytes data)) :
    (load_data blake2b (some (file.set (8 + BLAKE2B_OUTBYTES + j) b))
        = load_result.fail load_failure.hash_mismatch ∨
      load_data blake2b (some (file.set (8 + BLAKE2B_OUTBYTES + j) b))
        = load_result.fail load_failure.hash_failed) ∧
    (load_data blake2b (some (file.set (8 + BLAKE2B_OUTBYTES + j) b))).status = -1 ∧
    (load_data blake2b none).status = -1 := by
  obtain ⟨hash, hb, rfl⟩ := prepare_data_file_eq blake2b data file hprep
  have hhash := hdig _ _ hb
  have hset : (le_bytes 8 data.length ++ hash ++ f32_bytes data).set (8 + BLAKE2B_OUTBYTES + j) b
      = le_bytes 8 data.length ++ hash ++ (f32_bytes data).set j b := by
    have hl : (le_bytes 8 data.length ++ hash).length = 8 + BLAKE2B_OUTBYTES := by
      rw [List.length_append, length_le_bytes, hhash]
    rw [List.set_append_right _ _ (by rw [hl]; exact Nat.le_add_right _ _), hl,
      Nat.add_sub_cancel_left]
  have h := load_data_container blake2b data.length hash ((f32_bytes data).set j b)
    (by omega) hhash (by rw [List.length_set, length_f32_bytes])
  rw [hset, h]
  cases hb2 : blake2b ((f32_bytes data).set j b) with
  | none => exact ⟨Or.inr rfl, rfl, rfl⟩
  | some hash2 =>
    have hne : hash ≠ hash2 := by
      intro heq
      apply hdiff
      rw [hb2, hb, heq]
    simp only
    rw [if_pos hne]
    exact ⟨Or.inl rfl, rfl, rfl⟩

/-- Witness for C10 as amended: payload byte 1 of the container of the buffer
1, 513 changed from 0 to 7, under the stand-in digest. -/
theorem C10_changed_payload_rejected_witness :
    prepare_data_file sum_digest [1, 513] = some sample_container ∧
    sum_digest ((f32_bytes [1, 513]).set 1 7) ≠ sum_digest (f32_bytes [1, 513]) ∧
    (load_data sum_digest
      (some (sample_container.set (8 + BLAKE2B_OUTBYTES + 1) 7))).status = -1 :=
  ⟨by decide, by decide,
    (C10_changed_payload_rejected sum_digest [1, 513] sample_container 1 7
      (by
        intro input hash h
        simp only [sum_digest, Option.some.injEq] at h
        rw [← h, List.length_replicate])
      (by decide) (by decide) (by decide)).2.1⟩

end PthreadExample
